import Mathlib

/-!
Verification of the `booz.gin` parser-combinator engine (`src/booz/gin/parser.py`,
`src/booz/gin/rule.py`).

The embedding models the transactional parse protocol of `ParserState`:
every `Parser.parse` call opens a transaction recording the cursor position;
`_parse` mutates the current transaction's `success`/`commit`/`value` flags, and
on exit the cursor is restored to the transaction's start unless the
transaction was committed.  `_parse` is always invoked on a fresh transaction,
so it is modelled as a function `runP` from a cursor position to a `PRes`
record (the final transaction flags plus the final cursor position inside the
transaction), and `parse` wraps `runP` with the rollback-on-exit rule.

The input cursor is a `List Char` with a `Nat` position; `read(n)` returns up
to `n` characters and advances by the number actually read (reading past end
of input yields fewer characters, never an error), exactly as `io.StringIO`.

Unbounded repetition (`Repeat` with `maximum=None` over a child succeeding
without consuming) can diverge in the source, so the interpreter takes a fuel
argument and returns `none` when fuel runs out; `runP_mono` shows results are
stable under adding fuel, and `ParseTo` existentially quantifies the fuel.

Parse calls are modelled with no skip policy installed (`skipper=None`), the
configuration every claim is about; with `state.skipper` `None` the skip loop
inside `Parser.parse` is a no-op, so child parses recursively see the same
semantics.
-/

namespace Booze

/-- The `UNUSED` marker, strings, tuples and arbitrary objects: the runtime
values a parse can produce.  Arbitrary Python objects are represented by
integer payloads (`obj`), enough for the symbol tables in the claims. -/
inductive Value where
  | UNUSED : Value
  | str : String → Value
  | tup : List Value → Value
  | obj : Int → Value

/-- `AttrType` from `parser.py`: UNUSED, OBJECT, STRING, TUPLE. -/
inductive AttrType where
  | UNUSED | OBJECT | STRING | TUPLE
deriving DecidableEq

/-- `AttrType.type_for`: the natural type of a runtime value. -/
def AttrType.type_for : Value → AttrType
  | .UNUSED => .UNUSED
  | .str _ => .STRING
  | .tup _ => .TUPLE
  | .obj _ => .OBJECT

abbrev CharArg := Option (List Char)
abbrev StrArg := String

/-- Combinator trees of `parser.py`: `Char`, `String`, `Seq`, `Alt`,
`Symbols` (already-sorted literal table), `Repeat(parser, minimum, maximum)`
(`maximum = none` means unbounded), and the directives `omit`, `predicate`
and `not_predicate` (the post and func directives wrapping a child's
`_parse` in the same transaction). -/
inductive Parser where
  | Char (chars : CharArg)
  | String (string : StrArg)
  | Seq (parsers : List Parser)
  | Alt (parsers : List Parser)
  | Symbols (symbols : List (StrArg × Value))
  | Repeat (parser : Parser) (minimum : Nat) (maximum : Option Nat)
  | Omit (parser : Parser)
  | Predicate (parser : Parser)
  | NotPredicate (parser : Parser)

/-- `Seq.attr_type` / `Seq.__attr_types`: drop UNUSED-typed children; none
left gives UNUSED, one left gives that type, several give TUPLE. -/
def seqAttr (ts : List AttrType) : AttrType :=
  match ts.filter (fun t => decide (t ≠ AttrType.UNUSED)) with
  | [] => .UNUSED
  | [t] => t
  | _ => .TUPLE

/-- `Symbols.__init__` attribute inference (no explicit `attr_type` given):
the common `type_for` of all mapped values, `OBJECT` as soon as two values
disagree.  The empty case is unreachable: `Symbols({})` raises `ValueError`
at construction. -/
def symbolsAttr : List Value → AttrType
  | [] => .OBJECT
  | v :: vs =>
      vs.foldl (fun acc w => if acc = AttrType.type_for w then acc else .OBJECT)
        (AttrType.type_for v)

mutual

/-- `attr_type` of each combinator class in `parser.py`. -/
def Parser.attr_type : Parser → AttrType
  | .Char _ => .STRING
  | .String _ => .STRING
  | .Seq ps => seqAttr (attrTypes ps)
  | .Alt ps =>
      match attrTypes ps with
      | [] => .UNUSED
      | t :: rest => if rest.all (fun u => decide (u = t)) then t else .OBJECT
  | .Symbols syms => symbolsAttr (syms.map Prod.snd)
  | .Repeat p mn mx =>
      if mn = 0 ∧ mx = some 1 then p.attr_type
      else if p.attr_type = .UNUSED then .UNUSED else .TUPLE
  | .Omit _ => .UNUSED
  | .Predicate _ => .UNUSED
  | .NotPredicate _ => .UNUSED

/-- `attr_type` mapped over a list of children. -/
def attrTypes : List Parser → List AttrType
  | [] => []
  | p :: ps => p.attr_type :: attrTypes ps

end

/-- Final state of one transaction after `_parse`: the `success`/`commit`
flags, the transaction `value` (`UNUSED` when never set, matching the class
default of `ParserState.__Tx`), and the cursor position. -/
structure PRes where
  success : Bool
  commit : Bool
  value : Value
  pos : Nat

/-- `state.read(n)`: up to `n` characters from the cursor. -/
def readN (input : List Char) (pos n : Nat) : List Char :=
  (input.drop pos).take n

/-- `Char._parse`: read one character; fail at end of input; commit the
character iff no character class is configured or it is a member.  The
cursor stays advanced past the read character even on a mismatch (the
enclosing transaction is responsible for the rollback). -/
def charRes (chars : CharArg) (input : List Char) (pos : Nat) : PRes :=
  match readN input pos 1 with
  | [] => ⟨false, false, .UNUSED, pos⟩
  | c :: _ =>
      match chars with
      | none => ⟨true, true, .str (String.mk [c]), pos + 1⟩
      | some cs =>
          if c ∈ cs then ⟨true, true, .str (String.mk [c]), pos + 1⟩
          else ⟨false, false, .UNUSED, pos + 1⟩

/-- `String._parse`: read `len(expected)` characters and commit the read
string iff it equals the expected one; the cursor advances by the number of
characters actually read in either case. -/
def stringRes (s : StrArg) (input : List Char) (pos : Nat) : PRes :=
  let expected := s.toList
  let got := readN input pos expected.length
  if got = expected then ⟨true, true, .str (String.mk got), pos + got.length⟩
  else ⟨false, false, .UNUSED, pos + got.length⟩

/-- The value committed at the end of `Seq._parse`: no collected values give
`UNUSED`, a single collected value is committed bare, several are committed
as a tuple in order. -/
def collapse : List Value → Value
  | [] => .UNUSED
  | [v] => v
  | vs => .tup vs

/-- The committed transaction state ending a successful `Seq._parse`. -/
def seqCommit (values : List Value) (pos : Nat) : PRes :=
  ⟨true, true, collapse values, pos⟩

/-- The child-loop of `Seq._parse`: each child runs through `parser.parse`
(a fresh sub-transaction, hence the rollback rule on `posAfter`); a child's
value is collected iff its `attr_type` is not UNUSED; the first failure
aborts the whole sequence with the enclosing transaction untouched. -/
def seqLoopF (child : Parser → Nat → Option PRes) :
    List Parser → Nat → List Value → Option PRes
  | [], pos, values => some (seqCommit values pos)
  | p :: ps, pos, values =>
      match child p pos with
      | none => none
      | some r =>
          let posAfter := if r.commit then r.pos else pos
          if r.success then
            seqLoopF child ps posAfter
              (if p.attr_type = AttrType.UNUSED then values else values ++ [r.value])
          else some ⟨false, false, .UNUSED, posAfter⟩

/-- The child-loop of `Alt._parse`: children are tried in order, each in its
own sub-transaction; the first success is committed with that child's value
and the loop stops; if all fail the transaction is left untouched. -/
def altLoopF (child : Parser → Nat → Option PRes) :
    List Parser → Nat → Option PRes
  | [], pos => some ⟨false, false, .UNUSED, pos⟩
  | p :: ps, pos =>
      match child p pos with
      | none => none
      | some r =>
          let posAfter := if r.commit then r.pos else pos
          if r.success then some ⟨true, true, r.value, posAfter⟩
          else altLoopF child ps posAfter

/-- The loop of `Symbols._parse`: try each stored literal as a `String`
parse in stored order and commit the first match's mapped value. -/
def symLoopF (input : List Char) : List (StrArg × Value) → Nat → PRes
  | [], pos => ⟨false, false, .UNUSED, pos⟩
  | (s, v) :: rest, pos =>
      let r := stringRes s input pos
      let posAfter := if r.commit then r.pos else pos
      if r.success then ⟨true, true, v, posAfter⟩
      else symLoopF input rest posAfter

/-- The `while` guard of `Repeat._parse`: `maximum is None or count < maximum`. -/
def continueRep : Option Nat → Nat → Bool
  | none, _ => true
  | some m, count => decide (count < m)

/-- The commit step after the loop of `Repeat._parse`: the optional special
case (`minimum 0, maximum 1`) always commits the single collected value (or
`UNUSED` when no iteration ran); otherwise commit iff `count ≥ minimum`,
with value `UNUSED` when the repetition's `attr_type` is UNUSED and the
tuple of collected values otherwise. -/
def repFinish (p : Parser) (mn : Nat) (mx : Option Nat) (count : Nat)
    (values : List Value) (pos : Nat) : PRes :=
  if mn = 0 ∧ mx = some 1 then
    ⟨true, true, values.headD .UNUSED, pos⟩
  else if count ≥ mn then
    ⟨true, true,
     if (Parser.Repeat p mn mx).attr_type = .UNUSED then .UNUSED else .tup values, pos⟩
  else ⟨false, false, .UNUSED, pos⟩

/-- The iteration loop of `Repeat._parse`: while the guard holds, run the
child's `_parse` in a fresh sub-transaction; append its value and continue
on success, break on failure (the `count += 1` is skipped by the break). -/
def repLoopF (child : Nat → Option PRes) (p : Parser) (mn : Nat) (mx : Option Nat) :
    Nat → Nat → Nat → List Value → Option PRes
  | 0, _, _, _ => none
  | iterFuel + 1, pos, count, values =>
      if continueRep mx count then
        match child pos with
        | none => none
        | some r =>
            let posAfter := if r.commit then r.pos else pos
            if r.success then
              repLoopF child p mn mx iterFuel posAfter (count + 1) (values ++ [r.value])
            else some (repFinish p mn mx count values posAfter)
      else some (repFinish p mn mx count values pos)

/-- `_parse` of every modelled combinator, run on a fresh transaction at
cursor position `pos`; returns the transaction's final flags and cursor
position, or `none` when the fuel is exhausted. -/
def runP : Nat → Parser → List Char → Nat → Option PRes
  | 0, _, _, _ => none
  | fuel + 1, p, input, pos =>
      match p with
      | .Char cs => some (charRes cs input pos)
      | .String s => some (stringRes s input pos)
      | .Seq ps => seqLoopF (fun q pp => runP fuel q input pp) ps pos []
      | .Alt ps => altLoopF (fun q pp => runP fuel q input pp) ps pos
      | .Symbols syms => some (symLoopF input syms pos)
      | .Repeat c mn mx =>
          repLoopF (fun pp => runP fuel c input pp) c mn mx (fuel + 1) pos 0 []
      | .Omit c =>
          (runP fuel c input pos).map fun r =>
            if r.success then { r with value := .UNUSED } else r
      | .Predicate c =>
          (runP fuel c input pos).map fun r =>
            if r.success then { r with value := .UNUSED, commit := false } else r
      | .NotPredicate c =>
          (runP fuel c input pos).map fun r =>
            if r.success then ⟨false, false, .UNUSED, r.pos⟩
            else ⟨true, false, .UNUSED, r.pos⟩

/-- `Parser.parse` with no skip policy: open a transaction, run `_parse`,
return `(successful, value if successful else None)`; on exit the cursor is
restored to the transaction's start unless the transaction committed.  The
final cursor position is returned as the third component. -/
def parse (fuel : Nat) (p : Parser) (input : List Char) (pos : Nat) :
    Option (Bool × Option Value × Nat) :=
  (runP fuel p input pos).map fun r =>
    (r.success, if r.success then some r.value else none, if r.commit then r.pos else pos)

/-- `p.parse(input)` can return `out` (with enough fuel). -/
def ParseTo (p : Parser) (input : List Char) (pos : Nat)
    (out : Bool × Option Value × Nat) : Prop :=
  ∃ fuel, parse fuel p input pos = some out

/-- Lexicographic code-point order on character lists (Python's `str`
comparison used by `sorted`). -/
def charsLe : List Char → List Char → Bool
  | [], _ => true
  | _ :: _, [] => false
  | c :: cs, d :: ds =>
      if c.val.toNat < d.val.toNat then true
      else if d.val.toNat < c.val.toNat then false
      else charsLe cs ds

/-- Python string comparison, by code points. -/
def strLe (a b : StrArg) : Bool := charsLe a.toList b.toList

/-- Insertion step of sorting the symbol items by key. -/
def sortedInsert (x : StrArg × Value) :
    List (StrArg × Value) → List (StrArg × Value)
  | [] => [x]
  | y :: ys => if strLe x.1 y.1 then x :: y :: ys else y :: sortedInsert x ys

/-- `sorted(symbols.items())`: the symbol items sorted by key (keys are
distinct in a dict, so only the key ordering matters). -/
def sortSymbols : List (StrArg × Value) → List (StrArg × Value)
  | [] => []
  | x :: xs => sortedInsert x (sortSymbols xs)

/-- `Symbols.__init__` (without an explicit `attr_type`): store the literal
table sorted by key. -/
def Symbols.make (symbols : List (StrArg × Value)) : Parser :=
  .Symbols (sortSymbols symbols)

/-- `lit(string) = omit[String(string)]`: a literal match with no payload. -/
def lit (s : StrArg) : Parser := .Omit (.String s)

/-- `Parser.__neg__` and its override `Repeat.__neg__`: negating a `Repeat`
with `minimum == 1` gives `Repeat(0, maximum)[child]`; negating anything
else wraps it in `Repeat(0, 1)`. -/
def Parser.neg : Parser → Parser
  | .Repeat c mn mx =>
      if mn = 1 then .Repeat c 0 mx else .Repeat (.Repeat c mn mx) 0 (some 1)
  | p => .Repeat p 0 (some 1)

/-- The children a parser contributes when chained into a sequence by
`__lshift__`: a `Seq` contributes its child list, anything else itself. -/
def toChildren : Parser → List Parser
  | .Seq ps => ps
  | p => [p]

/-- `__lshift__` (`A << B`): `Parser.__lshift__` splices a `Seq`
right-operand; `Seq.__lshift__` additionally splices a `Seq` left-operand,
so chaining sequences flattens instead of nesting. -/
def lshift (a b : Parser) : Parser :=
  match a, b with
  | .Seq xs, .Seq ys => .Seq (xs ++ ys)
  | .Seq xs, q => .Seq (xs ++ [q])
  | p, .Seq ys => .Seq (p :: ys)
  | p, q => .Seq [p, q]

/-- The argument of `Rule.parser`'s setter: a combinator or a raw string
(`as_parser` also accepts a dict, which no claim exercises). -/
inductive BindValue where
  | parser (p : Parser)
  | str (s : StrArg)

/-- Outcome of `Rule.parser = value`: success with the stored parser, the
`ValueError('Unexpected attribute type')`, or the `AttributeError` raised
by evaluating `value.attr_type` on a value that has no such attribute. -/
inductive BindOutcome where
  | ok (p : Parser)
  | valueError
  | attributeError

/-- `as_parser`: strings are wrapped as `lit`, parsers pass through. -/
def asParser : BindValue → Parser
  | .parser p => p
  | .str s => lit s

/-- `Rule.parser` setter: `if self.__expected_attr_type and
self.__expected_attr_type != value.attr_type: raise ValueError`, then
`self.__parser = as_parser(value)`.  The guard reads `value.attr_type` on
the raw value, before `as_parser` wraps it, so a raw string hits an
`AttributeError` whenever an expected type is declared. -/
def Rule.bindTarget (expected : Option AttrType) (v : BindValue) : BindOutcome :=
  match expected with
  | none => .ok (asParser v)
  | some t =>
      match v with
      | .str _ => .attributeError
      | .parser p => if t ≠ p.attr_type then .valueError else .ok (asParser (.parser p))

/-- The values `Seq._parse` collects: the parse values of the children
whose `attr_type` is not UNUSED, in order. -/
def keepValues : List Parser → List Value → List Value
  | p :: ps, v :: vs =>
      if p.attr_type = AttrType.UNUSED then keepValues ps vs
      else v :: keepValues ps vs
  | _, _ => []

/-- All children of a sequence succeed in turn: starting at `pos`, each
child's `parse` succeeds with the listed value, ending at `pos'`. -/
def SeqChildren : List Parser → List Char → Nat → Nat → List Value → Prop
  | [], _, pos, pos', vs => pos' = pos ∧ vs = []
  | p :: ps, input, pos, pos', vs =>
      ∃ v mid rest, ParseTo p input pos (true, some v, mid) ∧
        SeqChildren ps input mid pos' rest ∧ vs = v :: rest

/-- Fuel-explicit form of `SeqChildren`: every child evaluated at the same
fuel `F`, with the raw transaction results exposed. -/
def SeqChildrenF (F : Nat) : List Parser → List Char → Nat → Nat → List Value → Prop
  | [], _, pos, pos', vs => pos' = pos ∧ vs = []
  | p :: ps, input, pos, pos', vs =>
      ∃ r rest, runP F p input pos = some r ∧ r.success = true ∧
        SeqChildrenF F ps input (if r.commit then r.pos else pos) pos' rest ∧
        vs = r.value :: rest

/-! ### The commit flag implies the success flag

`ParserState` can only set `commit` through `commit(value)`, which also sets
`success`; `rollback` clears both and `uncommit` clears only `commit`, so a
transaction with `commit` set is always successful.  Consequently a failed
parse never keeps its consumed input. -/

theorem charRes_commit_success (cs : CharArg) (input : List Char) (pos : Nat) :
    (charRes cs input pos).commit = true → (charRes cs input pos).success = true := by
  unfold charRes
  rcases readN input pos 1 with _ | ⟨c, rest⟩
  · simp
  · rcases cs with _ | cs
    · simp
    · by_cases h : c ∈ cs <;> simp [h]

theorem stringRes_commit_success (s : StrArg) (input : List Char) (pos : Nat) :
    (stringRes s input pos).commit = true → (stringRes s input pos).success = true := by
  unfold stringRes
  dsimp only
  split <;> simp

theorem seqLoopF_commit_success (child : Parser → Nat → Option PRes) :
    ∀ ps pos values r, seqLoopF child ps pos values = some r →
      r.commit = true → r.success = true := by
  intro ps
  induction ps with
  | nil =>
      intro pos values r h _
      simp only [seqLoopF] at h
      injection h with h
      subst h
      rfl
  | cons p ps ih =>
      intro pos values r h hc
      cases hch : child p pos with
      | none =>
          simp only [seqLoopF, hch] at h
          exact Option.noConfusion h
      | some cr =>
          simp only [seqLoopF, hch] at h
          by_cases hs : cr.success = true
          · rw [if_pos hs] at h
            exact ih _ _ _ h hc
          · rw [if_neg hs] at h
            injection h with h
            subst h
            exact absurd hc (by simp)

theorem altLoopF_commit_success (child : Parser → Nat → Option PRes) :
    ∀ ps pos r, altLoopF child ps pos = some r →
      r.commit = true → r.success = true := by
  intro ps
  induction ps with
  | nil =>
      intro pos r h hc
      simp only [altLoopF] at h
      injection h with h
      subst h
      exact absurd hc (by simp)
  | cons p ps ih =>
      intro pos r h hc
      cases hch : child p pos with
      | none =>
          simp only [altLoopF, hch] at h
          exact Option.noConfusion h
      | some cr =>
          simp only [altLoopF, hch] at h
          by_cases hs : cr.success = true
          · rw [if_pos hs] at h
            injection h with h
            subst h
            rfl
          · rw [if_neg hs] at h
            exact ih _ _ h hc

theorem symLoopF_commit_success (input : List Char) :
    ∀ syms pos, (symLoopF input syms pos).commit = true →
      (symLoopF input syms pos).success = true := by
  intro syms
  induction syms with
  | nil => intro pos h; exact absurd h (by simp [symLoopF])
  | cons sv rest ih =>
      intro pos h
      rcases sv with ⟨s, v⟩
      simp only [symLoopF] at h ⊢
      by_cases hs : (stringRes s input pos).success = true
      · rw [if_pos hs] at h ⊢
      · rw [if_neg hs] at h ⊢
        exact ih _ h

theorem repFinish_commit_success (p : Parser) (mn : Nat) (mx : Option Nat)
    (count : Nat) (values : List Value) (pos : Nat) :
    (repFinish p mn mx count values pos).commit = true →
    (repFinish p mn mx count values pos).success = true := by
  unfold repFinish
  split
  · simp
  · split <;> simp

theorem repLoopF_commit_success (child : Nat → Option PRes) (p : Parser)
    (mn : Nat) (mx : Option Nat) :
    ∀ n pos count values r, repLoopF child p mn mx n pos count values = some r →
      r.commit = true → r.success = true := by
  intro n
  induction n with
  | zero => intro pos count values r h; cases h
  | succ n ih =>
      intro pos count values r h hc
      simp only [repLoopF] at h
      by_cases hg : continueRep mx count = true
      · rw [if_pos hg] at h
        cases hch : child pos with
        | none => rw [hch] at h; cases h
        | some cr =>
            simp only [hch] at h
            by_cases hs : cr.success = true
            · rw [if_pos hs] at h
              exact ih _ _ _ _ h hc
            · rw [if_neg hs] at h
              injection h with h
              subst h
              exact repFinish_commit_success _ _ _ _ _ _ hc
      · rw [if_neg hg] at h
        injection h with h
        subst h
        exact repFinish_commit_success _ _ _ _ _ _ hc

theorem runP_commit_success :
    ∀ fuel p input pos r, runP fuel p input pos = some r →
      r.commit = true → r.success = true := by
  intro fuel
  induction fuel with
  | zero => intro p input pos r h; cases h
  | succ fuel ih =>
      intro p input pos r h hc
      cases p with
      | Char cs =>
          simp only [runP] at h
          injection h with h
          subst h
          exact charRes_commit_success _ _ _ hc
      | String s =>
          simp only [runP] at h
          injection h with h
          subst h
          exact stringRes_commit_success _ _ _ hc
      | Seq ps =>
          simp only [runP] at h
          exact seqLoopF_commit_success _ _ _ _ _ h hc
      | Alt ps =>
          simp only [runP] at h
          exact altLoopF_commit_success _ _ _ _ h hc
      | Symbols syms =>
          simp only [runP] at h
          injection h with h
          subst h
          exact symLoopF_commit_success _ _ _ hc
      | Repeat c mn mx =>
          simp only [runP] at h
          exact repLoopF_commit_success _ _ _ _ _ _ _ _ _ h hc
      | Omit c =>
          simp only [runP] at h
          cases hch : runP fuel c input pos with
          | none => rw [hch] at h; cases h
          | some cr =>
              simp only [hch, Option.map_some'] at h
              by_cases hs : cr.success = true
              · rw [if_pos hs] at h
                injection h with h
                subst h
                exact hs
              · rw [if_neg hs] at h
                injection h with h
                subst h
                exact ih _ _ _ _ hch hc
      | Predicate c =>
          simp only [runP] at h
          cases hch : runP fuel c input pos with
          | none => rw [hch] at h; cases h
          | some cr =>
              simp only [hch, Option.map_some'] at h
              by_cases hs : cr.success = true
              · rw [if_pos hs] at h
                injection h with h
                subst h
                exact absurd hc (by simp)
              · rw [if_neg hs] at h
                injection h with h
                subst h
                exact ih _ _ _ _ hch hc
      | NotPredicate c =>
          simp only [runP] at h
          cases hch : runP fuel c input pos with
          | none => rw [hch] at h; cases h
          | some cr =>
              simp only [hch, Option.map_some'] at h
              by_cases hs : cr.success = true
              · rw [if_pos hs] at h
                injection h with h
                subst h
                exact absurd hc (by simp)
              · rw [if_neg hs] at h
                injection h with h
                subst h
                exact absurd hc (by simp)

theorem runP_fail_no_commit {fuel : Nat} {p : Parser} {input : List Char}
    {pos : Nat} {r : PRes} (h : runP fuel p input pos = some r)
    (hs : r.success = false) : r.commit = false := by
  cases hcommit : r.commit
  · rfl
  · rw [runP_commit_success fuel p input pos r h hcommit] at hs
    cases hs

/-! ### Fuel monotonicity

A result produced with some amount of fuel is reproduced unchanged by any
larger amount: the fuel only cuts off divergence, it never alters an
outcome that was reached. -/

theorem seqLoopF_mono {child child' : Parser → Nat → Option PRes}
    (hch : ∀ q pp r, child q pp = some r → child' q pp = some r) :
    ∀ ps pos values r, seqLoopF child ps pos values = some r →
      seqLoopF child' ps pos values = some r := by
  intro ps
  induction ps with
  | nil => intro pos values r h; simpa only [seqLoopF] using h
  | cons p ps ih =>
      intro pos values r h
      cases hch1 : child p pos with
      | none =>
          simp only [seqLoopF, hch1] at h
          exact Option.noConfusion h
      | some cr =>
          simp only [seqLoopF, hch1] at h
          simp only [seqLoopF, hch _ _ _ hch1]
          by_cases hs : cr.success = true
          · rw [if_pos hs] at h ⊢
            exact ih _ _ _ h
          · rw [if_neg hs] at h ⊢
            exact h

theorem altLoopF_mono {child child' : Parser → Nat → Option PRes}
    (hch : ∀ q pp r, child q pp = some r → child' q pp = some r) :
    ∀ ps pos r, altLoopF child ps pos = some r →
      altLoopF child' ps pos = some r := by
  intro ps
  induction ps with
  | nil => intro pos r h; simpa only [altLoopF] using h
  | cons p ps ih =>
      intro pos r h
      cases hch1 : child p pos with
      | none =>
          simp only [altLoopF, hch1] at h
          exact Option.noConfusion h
      | some cr =>
          simp only [altLoopF, hch1] at h
          simp only [altLoopF, hch _ _ _ hch1]
          by_cases hs : cr.success = true
          · rw [if_pos hs] at h ⊢
            exact h
          · rw [if_neg hs] at h ⊢
            exact ih _ _ h

theorem repLoopF_mono {child child' : Nat → Option PRes}
    (hch : ∀ pp r, child pp = some r → child' pp = some r)
    (p : Parser) (mn : Nat) (mx : Option Nat) :
    ∀ n n', n ≤ n' → ∀ pos count values r,
      repLoopF child p mn mx n pos count values = some r →
      repLoopF child' p mn mx n' pos count values = some r := by
  intro n
  induction n with
  | zero => intro n' _ pos count values r h; cases h
  | succ n ih =>
      intro n' hle pos count values r h
      obtain ⟨n'', rfl⟩ : ∃ m, n' = m + 1 := ⟨n' - 1, by omega⟩
      have hle' : n ≤ n'' := by omega
      simp only [repLoopF] at h ⊢
      by_cases hg : continueRep mx count = true
      · rw [if_pos hg] at h ⊢
        cases hch1 : child pos with
        | none => rw [hch1] at h; cases h
        | some cr =>
            simp only [hch1] at h
            simp only [hch _ _ hch1]
            by_cases hs : cr.success = true
            · rw [if_pos hs] at h ⊢
              exact ih _ hle' _ _ _ _ h
            · rw [if_neg hs] at h ⊢
              exact h
      · rw [if_neg hg] at h ⊢
        exact h

theorem runP_mono :
    ∀ fuel fuel', fuel ≤ fuel' → ∀ p input pos r,
      runP fuel p input pos = some r → runP fuel' p input pos = some r := by
  intro fuel
  induction fuel with
  | zero => intro fuel' _ p input pos r h; cases h
  | succ fuel ih =>
      intro fuel' hle p input pos r h
      obtain ⟨f', rfl⟩ : ∃ m, fuel' = m + 1 := ⟨fuel' - 1, by omega⟩
      have hle' : fuel ≤ f' := by omega
      cases p with
      | Char cs => simpa only [runP] using h
      | String s => simpa only [runP] using h
      | Symbols syms => simpa only [runP] using h
      | Seq ps =>
          simp only [runP] at h ⊢
          exact seqLoopF_mono (fun q pp r hq => ih f' hle' q input pp r hq) ps pos [] r h
      | Alt ps =>
          simp only [runP] at h ⊢
          exact altLoopF_mono (fun q pp r hq => ih f' hle' q input pp r hq) ps pos r h
      | Repeat c mn mx =>
          simp only [runP] at h ⊢
          exact repLoopF_mono (fun pp r hq => ih f' hle' c input pp r hq) c mn mx
            (fuel + 1) (f' + 1) (by omega) pos 0 [] r h
      | Omit c =>
          simp only [runP] at h ⊢
          cases hch : runP fuel c input pos with
          | none => rw [hch] at h; cases h
          | some cr =>
              rw [hch] at h
              rw [ih f' hle' c input pos cr hch]
              exact h
      | Predicate c =>
          simp only [runP] at h ⊢
          cases hch : runP fuel c input pos with
          | none => rw [hch] at h; cases h
          | some cr =>
              rw [hch] at h
              rw [ih f' hle' c input pos cr hch]
              exact h
      | NotPredicate c =>
          simp only [runP] at h ⊢
          cases hch : runP fuel c input pos with
          | none => rw [hch] at h; cases h
          | some cr =>
              rw [hch] at h
              rw [ih f' hle' c input pos cr hch]
              exact h

/-! ### The `parse` wrapper -/

theorem parse_of_runP {fuel : Nat} {p : Parser} {input : List Char} {pos : Nat}
    {r : PRes} (h : runP fuel p input pos = some r) :
    parse fuel p input pos =
      some (r.success, if r.success then some r.value else none,
            if r.commit then r.pos else pos) := by
  unfold parse
  rw [h]
  rfl

theorem runP_of_parse {fuel : Nat} {p : Parser} {input : List Char} {pos : Nat}
    {out : Bool × Option Value × Nat} (h : parse fuel p input pos = some out) :
    ∃ r, runP fuel p input pos = some r ∧
      out = (r.success, if r.success then some r.value else none,
             if r.commit then r.pos else pos) := by
  unfold parse at h
  cases hr : runP fuel p input pos with
  | none => rw [hr] at h; cases h
  | some r =>
      rw [hr] at h
      exact ⟨r, rfl, (Option.some.inj h).symm⟩

theorem parse_mono {fuel fuel' : Nat} (hle : fuel ≤ fuel') {p : Parser}
    {input : List Char} {pos : Nat} {out : Bool × Option Value × Nat}
    (h : parse fuel p input pos = some out) : parse fuel' p input pos = some out := by
  obtain ⟨r, hr, rfl⟩ := runP_of_parse h
  exact parse_of_runP (runP_mono _ _ hle _ _ _ _ hr)

theorem ParseTo_of_runP {p : Parser} {input : List Char} {pos : Nat}
    {fuel : Nat} {r : PRes} (h : runP fuel p input pos = some r) :
    ParseTo p input pos
      (r.success, if r.success then some r.value else none,
       if r.commit then r.pos else pos) :=
  ⟨fuel, parse_of_runP h⟩

theorem ParseTo_true_elim {p : Parser} {input : List Char} {pos : Nat}
    {v : Value} {pos' : Nat} (h : ParseTo p input pos (true, some v, pos')) :
    ∃ fuel r, runP fuel p input pos = some r ∧ r.success = true ∧
      r.value = v ∧ (if r.commit then r.pos else pos) = pos' := by
  obtain ⟨fuel, hp⟩ := h
  obtain ⟨r, hr, heq⟩ := runP_of_parse hp
  injection heq with h1 h23
  injection h23 with h2 h3
  have hs : r.success = true := h1.symm
  refine ⟨fuel, r, hr, hs, ?_, h3.symm⟩
  rw [hs, if_pos rfl] at h2
  exact (Option.some.inj h2).symm

theorem ParseTo_false_elim {p : Parser} {input : List Char} {pos : Nat}
    {v : Option Value} {pos' : Nat} (h : ParseTo p input pos (false, v, pos')) :
    pos' = pos ∧ v = none ∧
      ∃ fuel r, runP fuel p input pos = some r ∧
        r.success = false ∧ r.commit = false := by
  obtain ⟨fuel, hp⟩ := h
  obtain ⟨r, hr, heq⟩ := runP_of_parse hp
  injection heq with h1 h23
  injection h23 with h2 h3
  have hs : r.success = false := h1.symm
  have hcm : r.commit = false := runP_fail_no_commit hr hs
  refine ⟨?_, ?_, fuel, r, hr, hs, hcm⟩
  · rw [h3, hcm, if_neg (by simp)]
  · rw [h2, hs, if_neg (by simp)]

/-! ### Stepping lemmas for the repetition loop -/

theorem repLoopF_success_step (child : Nat → Option PRes) (p : Parser)
    (mn : Nat) (mx : Option Nat) (n pos count : Nat) (values : List Value)
    (r : PRes) (hg : continueRep mx count = true)
    (hch : child pos = some r) (hs : r.success = true) :
    repLoopF child p mn mx (n + 1) pos count values
      = repLoopF child p mn mx n (if r.commit then r.pos else pos)
          (count + 1) (values ++ [r.value]) := by
  simp only [repLoopF, hch]
  rw [if_pos hg, if_pos hs]

theorem repLoopF_fail_step (child : Nat → Option PRes) (p : Parser)
    (mn : Nat) (mx : Option Nat) (n pos count : Nat) (values : List Value)
    (r : PRes) (hg : continueRep mx count = true)
    (hch : child pos = some r) (hs : r.success = false) (hc : r.commit = false) :
    repLoopF child p mn mx (n + 1) pos count values
      = some (repFinish p mn mx count values pos) := by
  simp only [repLoopF, hch]
  rw [if_pos hg, if_neg (by rw [hs]; simp), hc]
  simp

theorem repLoopF_stop (child : Nat → Option PRes) (p : Parser)
    (mn : Nat) (mx : Option Nat) (n pos count : Nat) (values : List Value)
    (hg : continueRep mx count = false) :
    repLoopF child p mn mx (n + 1) pos count values
      = some (repFinish p mn mx count values pos) := by
  simp only [repLoopF]
  rw [if_neg (by rw [hg]; simp)]

/-! ### Flattening of `<<`-chains -/

theorem lshift_toChildren (a b : Parser) :
    lshift a b = .Seq (toChildren a ++ toChildren b) := by
  cases a <;> cases b <;> rfl

/-! ### The claims -/

/-- C1: rollback invariant.  Whenever a combinator's `parse` returns
failure, the cursor position after the call equals the position before it;
since every nested combinator invocation runs through the same `parse`
wrapper (its own transaction), this holds at every transaction nesting
depth, so a failed, uncommitted branch never leaves the cursor advanced. -/
theorem rollback_on_failure (p : Parser) (input : List Char) (pos : Nat)
    (v : Option Value) (pos' : Nat)
    (h : ParseTo p input pos (false, v, pos')) : pos' = pos :=
  (ParseTo_false_elim h).1

theorem rollback_on_failure_witness : (1 : Nat) = 1 :=
  rollback_on_failure (.Seq [.String "a", .String "b"]) ('a' :: 'c' :: []) 1
    none 1 ⟨5, rfl⟩

/-- C9: the literal parser built from the empty string succeeds at every
position without consuming input and commits the empty string as its value:
`String._parse` reads `len("") = 0` characters, the read result always
equals the expected text, so the parse commits `""` and the cursor does not
move — including at end of input, where reads return empty results. -/
theorem empty_string_zero_width_success (input : List Char) (pos : Nat) :
    ParseTo (.String "") input pos (true, some (.str ""), pos) :=
  ⟨1, rfl⟩

/-- C7: sequence associativity.  `(A << B) << C`, `A << (B << C)` and the
flattened sequence of the three operand's children are the same `Seq` node,
so they produce identical `(success, value)` results on every input;
chaining two sequences flattens into one wider `Seq` rather than nesting. -/
theorem seq_lshift_assoc (A B C : Parser) :
    lshift (lshift A B) C = .Seq (toChildren A ++ toChildren B ++ toChildren C)
    ∧ lshift A (lshift B C) = .Seq (toChildren A ++ toChildren B ++ toChildren C)
    ∧ ∀ fuel input pos,
        parse fuel (lshift (lshift A B) C) input pos
          = parse fuel (.Seq (toChildren A ++ toChildren B ++ toChildren C)) input pos
        ∧ parse fuel (lshift A (lshift B C)) input pos
          = parse fuel (.Seq (toChildren A ++ toChildren B ++ toChildren C)) input pos := by
  have h1 : lshift (lshift A B) C
      = .Seq (toChildren A ++ toChildren B ++ toChildren C) := by
    rw [lshift_toChildren, lshift_toChildren]
    simp [toChildren]
  have h2 : lshift A (lshift B C)
      = .Seq (toChildren A ++ toChildren B ++ toChildren C) := by
    rw [lshift_toChildren, lshift_toChildren]
    simp [toChildren, List.append_assoc]
  exact ⟨h1, h2, fun fuel input pos => ⟨by rw [h1], by rw [h2]⟩⟩

/-- C5, counterexample: negating the unbounded one-or-more repetition
`Repeat(1, None)[Char()]` produces `Repeat(0, None)[Char()]` — an unbounded
zero-or-more — and on input "aa" it consumes two matches of the child
(final position 2, value a 2-tuple), while a bounded zero-or-one
`Repeat(0, 1)[Char()]` consumes at most one match (final position 1, bare
value).  So the negation does not behave as a zero-or-one repetition. -/
theorem neg_one_or_more_counterexample :
    Parser.neg (.Repeat (.Char none) 1 none) = .Repeat (.Char none) 0 none
    ∧ parse 10 (Parser.neg (.Repeat (.Char none) 1 none)) ('a' :: 'a' :: []) 0
        = some (true, some (.tup [.str "a", .str "a"]), 2)
    ∧ parse 10 (.Repeat (.Char none) 0 (some 1)) ('a' :: 'a' :: []) 0
        = some (true, some (.str "a"), 1) :=
  ⟨rfl, rfl, rfl⟩

/-- C5, amended: negating a repetition whose `minimum` is 1 yields a
repetition with `minimum` 0 and the *same* `maximum` over the same child
(the Kleene-star simplification: unbounded one-or-more becomes unbounded
zero-or-more, not zero-or-one); negating a repetition with any other
minimum, or any non-repetition combinator, wraps it in a zero-or-one
`Repeat(0, 1)`. -/
theorem neg_kleene_simplification :
    (∀ c mx, Parser.neg (.Repeat c 1 mx) = .Repeat c 0 mx)
    ∧ (∀ c mn mx, mn ≠ 1 →
        Parser.neg (.Repeat c mn mx) = .Repeat (.Repeat c mn mx) 0 (some 1))
    ∧ (∀ p, (∀ c mn mx, p ≠ .Repeat c mn mx) →
        Parser.neg p = .Repeat p 0 (some 1)) := by
  refine ⟨fun c mx => by simp [Parser.neg], fun c mn mx h => by simp [Parser.neg, h],
    fun p h => ?_⟩
  cases p <;> first
    | rfl
    | exact absurd rfl (h _ _ _)

theorem neg_kleene_simplification_witness :
    Parser.neg (.Repeat (.Char none) 1 none) = .Repeat (.Char none) 0 none
    ∧ Parser.neg (.Repeat (.Char none) 2 none)
        = .Repeat (.Repeat (.Char none) 2 none) 0 (some 1)
    ∧ Parser.neg (.String "a") = .Repeat (.String "a") 0 (some 1) :=
  ⟨neg_kleene_simplification.1 (.Char none) none,
   neg_kleene_simplification.2.1 (.Char none) 2 none (by decide),
   neg_kleene_simplification.2.2 (.String "a") (fun c mn mx h => Parser.noConfusion h)⟩

/-- C6: a symbol table built from the mapping a↦1, ab↦2 stores its literals
in sorted lexicographic key order (in whichever order the items arrive),
and parsing "ab" succeeds with the mapped value 1 (the value of the key
"a", not the matched text), consuming one character and leaving "b"
unconsumed: literals are tried as `String` matches in sorted order and the
first match's mapped value is committed. -/
theorem symbols_sorted_first_match :
    Symbols.make [("a", .obj 1), ("ab", .obj 2)]
      = .Symbols [("a", .obj 1), ("ab", .obj 2)]
    ∧ Symbols.make [("ab", .obj 2), ("a", .obj 1)]
      = .Symbols [("a", .obj 1), ("ab", .obj 2)]
    ∧ parse 3 (Symbols.make [("a", .obj 1), ("ab", .obj 2)]) ('a' :: 'b' :: []) 0
      = some (true, some (.obj 1), 1) :=
  ⟨rfl, rfl, rfl⟩

/-- C8, counterexample: binding the string "a" to a rule whose expected
attribute type is `UNUSED` raises (an `AttributeError` from reading
`value.attr_type` on the raw string) even though the auto-wrapped literal
`lit "a"` has exactly the expected attribute type `UNUSED` — refuting the
claim that a bind succeeds whenever the new target's attribute type agrees,
for string targets as well as combinator targets. -/
theorem rule_bind_string_counterexample :
    Rule.bindTarget (some .UNUSED) (.str "a") = .attributeError
    ∧ (asParser (.str "a")).attr_type = .UNUSED :=
  ⟨rfl, rfl⟩

/-- C8, amended: the bind accepts a raw combinator or a literal string;
with no expected attribute type every bind succeeds, a string target being
auto-wrapped as a payload-free literal (`lit`, attribute type UNUSED).
When an expected attribute type was declared, binding a combinator raises
`ValueError` exactly when its attribute type disagrees, but binding a
string always raises (`AttributeError`) — the type guard reads
`value.attr_type` on the raw string before `as_parser` wraps it — even
when the wrapped literal's attribute type would agree. -/
theorem rule_bind_characterization :
    (∀ v, Rule.bindTarget none v = .ok (asParser v))
    ∧ (∀ s, (asParser (.str s)).attr_type = .UNUSED)
    ∧ (∀ t p, Rule.bindTarget (some t) (.parser p)
        = if t = p.attr_type then .ok p else .valueError)
    ∧ (∀ t s, Rule.bindTarget (some t) (.str s) = .attributeError) := by
  refine ⟨fun v => rfl, fun s => rfl, fun t p => ?_, fun t s => rfl⟩
  by_cases h : t = p.attr_type
  · simp [Rule.bindTarget, asParser, h]
  · simp [Rule.bindTarget, h]

/-! ### Sequences of successful children -/

theorem SeqChildrenF_mono {F F' : Nat} (hle : F ≤ F') (input : List Char) :
    ∀ ps pos pos' vs, SeqChildrenF F ps input pos pos' vs →
      SeqChildrenF F' ps input pos pos' vs := by
  intro ps
  induction ps with
  | nil => intro pos pos' vs h; exact h
  | cons p ps ih =>
      intro pos pos' vs h
      simp only [SeqChildrenF] at h ⊢
      obtain ⟨r, rest, hr, hs, hrest, hvs⟩ := h
      exact ⟨r, rest, runP_mono _ _ hle _ _ _ _ hr, hs, ih _ _ _ hrest, hvs⟩

theorem SeqChildren_fuel (input : List Char) :
    ∀ ps pos pos' vs, SeqChildren ps input pos pos' vs →
      ∃ F, SeqChildrenF F ps input pos pos' vs := by
  intro ps
  induction ps with
  | nil => intro pos pos' vs h; exact ⟨0, h⟩
  | cons p ps ih =>
      intro pos pos' vs h
      simp only [SeqChildren] at h
      obtain ⟨v, mid, rest, hp, hrest, hvs⟩ := h
      obtain ⟨F1, r, hr, hs, hv, hpos⟩ := ParseTo_true_elim hp
      obtain ⟨F2, hF2⟩ := ih _ _ _ hrest
      refine ⟨max F1 F2, ?_⟩
      simp only [SeqChildrenF]
      refine ⟨r, rest, runP_mono _ _ (le_max_left _ _) _ _ _ _ hr, hs, ?_, ?_⟩
      · rw [hpos]
        exact SeqChildrenF_mono (le_max_right _ _) input ps mid pos' rest hF2
      · rw [hvs, hv]

theorem seqLoopF_of_childrenF (input : List Char) (F : Nat) :
    ∀ ps pos pos' vs, SeqChildrenF F ps input pos pos' vs →
      ∀ values, seqLoopF (fun q pp => runP F q input pp) ps pos values
        = some (seqCommit (values ++ keepValues ps vs) pos') := by
  intro ps
  induction ps with
  | nil =>
      intro pos pos' vs h values
      simp only [SeqChildrenF] at h
      obtain ⟨hpos, hvs⟩ := h
      subst hpos
      subst hvs
      simp [seqLoopF, keepValues]
  | cons p ps ih =>
      intro pos pos' vs h values
      simp only [SeqChildrenF] at h
      obtain ⟨r, rest, hr, hs, hrest, hvs⟩ := h
      subst hvs
      simp only [seqLoopF, hr]
      rw [if_pos hs]
      by_cases ha : p.attr_type = AttrType.UNUSED
      · rw [if_pos ha, ih _ _ _ hrest values]
        simp [keepValues, ha]
      · rw [if_neg ha, ih _ _ _ hrest (values ++ [r.value])]
        simp [keepValues, ha, List.append_assoc]

/-- C2: sequence value assembly.  If every child of a sequence succeeds in
turn, the sequence commits the value obtained by dropping the values of
UNUSED-typed (NONE-typed) children and collapsing the rest: zero remaining
values give the UNUSED marker, exactly one remaining value is committed
bare (not as a one-element tuple), and two or more are committed as an
ordered tuple in left-to-right order. -/
theorem seq_value_assembly (ps : List Parser) (input : List Char)
    (pos pos' : Nat) (vs : List Value)
    (h : SeqChildren ps input pos pos' vs) :
    ParseTo (.Seq ps) input pos (true, some (collapse (keepValues ps vs)), pos') := by
  obtain ⟨F, hF⟩ := SeqChildren_fuel input ps pos pos' vs h
  refine ⟨F + 1, ?_⟩
  have hrun : runP (F + 1) (.Seq ps) input pos
      = some (seqCommit ([] ++ keepValues ps vs) pos') := by
    simp only [runP]
    exact seqLoopF_of_childrenF input F ps pos pos' vs hF []
  exact parse_of_runP hrun

theorem seq_value_assembly_witness :
    ParseTo (.Seq [.String "a", .Omit (.String "b"), .String "c"])
      ('a' :: 'b' :: 'c' :: []) 0
      (true, some (.tup [.str "a", .str "c"]), 3) :=
  seq_value_assembly [.String "a", .Omit (.String "b"), .String "c"]
    ('a' :: 'b' :: 'c' :: []) 0 3 [.str "a", .UNUSED, .str "c"]
    ⟨.str "a", 1, [.UNUSED, .str "c"], ⟨2, rfl⟩,
      ⟨.UNUSED, 2, [.str "c"], ⟨2, rfl⟩,
        ⟨.str "c", 3, [], ⟨2, rfl⟩, ⟨rfl, rfl⟩, rfl⟩, rfl⟩, rfl⟩

/-! ### Alternatives -/

theorem all_fail_fuel (input : List Char) (pos : Nat) :
    ∀ ps : List Parser, (∀ p ∈ ps, ParseTo p input pos (false, none, pos)) →
      ∃ F, ∀ p ∈ ps, ∃ r, runP F p input pos = some r ∧
        r.success = false ∧ r.commit = false := by
  intro ps
  induction ps with
  | nil => intro _; exact ⟨0, fun p hp => absurd hp (List.not_mem_nil p)⟩
  | cons q qs ih =>
      intro h
      obtain ⟨_, _, F1, r, hr, hs, hc⟩ :=
        ParseTo_false_elim (h q (List.mem_cons_self q qs))
      obtain ⟨F2, hF2⟩ := ih (fun p hp => h p (List.mem_cons_of_mem q hp))
      refine ⟨max F1 F2, fun p hp => ?_⟩
      rcases List.mem_cons.mp hp with rfl | hp'
      · exact ⟨r, runP_mono _ _ (le_max_left _ _) _ _ _ _ hr, hs, hc⟩
      · obtain ⟨r', hr', hs', hc'⟩ := hF2 p hp'
        exact ⟨r', runP_mono _ _ (le_max_right _ _) _ _ _ _ hr', hs', hc'⟩

theorem altLoopF_skip_failures (child : Parser → Nat → Option PRes) :
    ∀ pre : List Parser, ∀ pos : Nat,
      (∀ p ∈ pre, ∃ r, child p pos = some r ∧
        r.success = false ∧ r.commit = false) →
      ∀ ps, altLoopF child (pre ++ ps) pos = altLoopF child ps pos := by
  intro pre
  induction pre with
  | nil => intro pos _ ps; rfl
  | cons q pre ih =>
      intro pos h ps
      obtain ⟨r, hr, hs, hc⟩ := h q (List.mem_cons_self q pre)
      simp only [List.cons_append, altLoopF, hr]
      rw [if_neg (by rw [hs]; simp), hc]
      simp only [if_neg (by simp : ¬(false = true))]
      exact ih pos (fun p hp => h p (List.mem_cons_of_mem q hp)) ps

/-- C3: alternative priority.  Children of an alternative are tried
strictly in construction order: if every parser in `pre` fails at `pos` and
`c` succeeds there, then the alternative `pre ++ c :: rest` commits `c`'s
result for every choice of `rest` — the later children cannot influence the
outcome (priority-ordered choice, not longest match), so for `A or B` with
both able to match the result is always `A`'s.  And if every child fails,
the alternative fails. -/
theorem alt_first_match_priority (pre : List Parser) (c : Parser)
    (input : List Char) (pos : Nat) (v : Value) (pos' : Nat)
    (hpre : ∀ p ∈ pre, ParseTo p input pos (false, none, pos))
    (hc : ParseTo c input pos (true, some v, pos')) :
    (∀ rest, ParseTo (.Alt (pre ++ c :: rest)) input pos (true, some v, pos'))
    ∧ ∀ ps : List Parser, (∀ p ∈ ps, ParseTo p input pos (false, none, pos)) →
        ParseTo (.Alt ps) input pos (false, none, pos) := by
  constructor
  · intro rest
    obtain ⟨F1, hF1⟩ := all_fail_fuel input pos pre hpre
    obtain ⟨F2, r, hr, hs, hv, hpos⟩ := ParseTo_true_elim hc
    refine ⟨max F1 F2 + 1, ?_⟩
    have hrun : runP (max F1 F2 + 1) (.Alt (pre ++ c :: rest)) input pos
        = some ⟨true, true, r.value, if r.commit then r.pos else pos⟩ := by
      simp only [runP]
      rw [altLoopF_skip_failures _ pre pos
        (fun p hp => by
          obtain ⟨r', hr', hs', hc'⟩ := hF1 p hp
          exact ⟨r', runP_mono _ _ (le_max_left _ _) _ _ _ _ hr', hs', hc'⟩)
        (c :: rest)]
      simp only [altLoopF, runP_mono _ _ (le_max_right F1 F2) _ _ _ _ hr]
      rw [if_pos hs]
    calc parse (max F1 F2 + 1) (.Alt (pre ++ c :: rest)) input pos
        = some (true, some r.value, if r.commit then r.pos else pos) :=
          parse_of_runP hrun
      _ = some (true, some v, pos') := by rw [hv, hpos]
  · intro ps hall
    obtain ⟨F, hF⟩ := all_fail_fuel input pos ps hall
    refine ⟨F + 1, ?_⟩
    have hrun : runP (F + 1) (.Alt ps) input pos
        = some ⟨false, false, .UNUSED, pos⟩ := by
      simp only [runP]
      calc altLoopF (fun q pp => runP F q input pp) ps pos
          = altLoopF (fun q pp => runP F q input pp) (ps ++ []) pos := by
            rw [List.append_nil]
        _ = altLoopF (fun q pp => runP F q input pp) [] pos :=
            altLoopF_skip_failures _ ps pos hF []
        _ = some ⟨false, false, .UNUSED, pos⟩ := rfl
    exact parse_of_runP hrun

theorem alt_first_match_priority_witness :
    ParseTo (.Alt ([.String "b"] ++ .String "a" :: [.String "ax"]))
      ('a' :: 'x' :: []) 0 (true, some (.str "a"), 1) :=
  (alt_first_match_priority [.String "b"] (.String "a") ('a' :: 'x' :: []) 0
    (.str "a") 1
    (fun p hp => by rw [List.mem_singleton] at hp; subst hp; exact ⟨2, rfl⟩)
    ⟨2, rfl⟩).1 [.String "ax"]

/-- C4: repetition bounds for `Repeat(minimum 2, maximum 4)`.  On an input
where the child would match five consecutive times, the repetition succeeds
and consumes exactly the input of the first four matches (the loop stops at
the maximum), committing UNUSED when its attribute type resolves to UNUSED
and the ordered 4-tuple of collected values otherwise.  On an input where
the child matches exactly once (succeeds once, then fails), the repetition
fails — the count 1 is below the minimum 2 — and consumes nothing. -/
theorem repeat_bounds (c : Parser) (input : List Char)
    (p0 p1 p2 p3 p4 p5 : Nat) (v1 v2 v3 v4 v5 : Value)
    (h1 : ParseTo c input p0 (true, some v1, p1))
    (h2 : ParseTo c input p1 (true, some v2, p2))
    (h3 : ParseTo c input p2 (true, some v3, p3))
    (h4 : ParseTo c input p3 (true, some v4, p4))
    (h5 : ParseTo c input p4 (true, some v5, p5)) :
    ParseTo (.Repeat c 2 (some 4)) input p0
      (true,
       some (if (Parser.Repeat c 2 (some 4)).attr_type = .UNUSED then Value.UNUSED
             else .tup [v1, v2, v3, v4]), p4)
    ∧ ∀ q0 q1 : Nat, ∀ w : Value, ParseTo c input q0 (true, some w, q1) →
        ParseTo c input q1 (false, none, q1) →
        ParseTo (.Repeat c 2 (some 4)) input q0 (false, none, q0) := by
  constructor
  · obtain ⟨F1, r1, hr1, hs1, hv1, hp1⟩ := ParseTo_true_elim h1
    obtain ⟨F2, r2, hr2, hs2, hv2, hp2⟩ := ParseTo_true_elim h2
    obtain ⟨F3, r3, hr3, hs3, hv3, hp3⟩ := ParseTo_true_elim h3
    obtain ⟨F4, r4, hr4, hs4, hv4, hp4⟩ := ParseTo_true_elim h4
    obtain ⟨E, hG1, hG2, hG3, hG4⟩ :
        ∃ E, runP (E + 5) c input p0 = some r1 ∧ runP (E + 5) c input p1 = some r2 ∧
          runP (E + 5) c input p2 = some r3 ∧ runP (E + 5) c input p3 = some r4 := by
      refine ⟨F1 + F2 + F3 + F4, ?_, ?_, ?_, ?_⟩
      · exact runP_mono _ _ (by omega) _ _ _ _ hr1
      · exact runP_mono _ _ (by omega) _ _ _ _ hr2
      · exact runP_mono _ _ (by omega) _ _ _ _ hr3
      · exact runP_mono _ _ (by omega) _ _ _ _ hr4
    have e1 := repLoopF_success_step (fun pp => runP (E + 5) c input pp) c 2
      (some 4) (E + 5) p0 0 [] r1 rfl hG1 hs1
    rw [hp1, hv1] at e1
    have e2 := repLoopF_success_step (fun pp => runP (E + 5) c input pp) c 2
      (some 4) (E + 4) p1 1 [v1] r2 rfl hG2 hs2
    rw [hp2, hv2] at e2
    have e3 := repLoopF_success_step (fun pp => runP (E + 5) c input pp) c 2
      (some 4) (E + 3) p2 2 [v1, v2] r3 rfl hG3 hs3
    rw [hp3, hv3] at e3
    have e4 := repLoopF_success_step (fun pp => runP (E + 5) c input pp) c 2
      (some 4) (E + 2) p3 3 [v1, v2, v3] r4 rfl hG4 hs4
    rw [hp4, hv4] at e4
    have e5 := repLoopF_stop (fun pp => runP (E + 5) c input pp) c 2
      (some 4) (E + 1) p4 4 [v1, v2, v3, v4] rfl
    refine ⟨E + 5 + 1, ?_⟩
    have hrun : runP (E + 5 + 1) (.Repeat c 2 (some 4)) input p0
        = some (repFinish c 2 (some 4) 4 [v1, v2, v3, v4] p4) := by
      simp only [runP]
      exact e1.trans (e2.trans (e3.trans (e4.trans e5)))
    exact parse_of_runP hrun
  · intro q0 q1 w hsucc hfail
    obtain ⟨Fa, ra, hra, hsa, hva, hpa⟩ := ParseTo_true_elim hsucc
    obtain ⟨_, _, Fb, rb, hrb, hsb, hcb⟩ := ParseTo_false_elim hfail
    have hra' := runP_mono _ _ (by omega : Fa ≤ Fa + Fb + 2) _ _ _ _ hra
    have hrb' := runP_mono _ _ (by omega : Fb ≤ Fa + Fb + 2) _ _ _ _ hrb
    have e1 := repLoopF_success_step (fun pp => runP (Fa + Fb + 2) c input pp) c 2
      (some 4) (Fa + Fb + 2) q0 0 [] ra rfl hra' hsa
    rw [hpa, hva] at e1
    have e2 := repLoopF_fail_step (fun pp => runP (Fa + Fb + 2) c input pp) c 2
      (some 4) (Fa + Fb + 1) q1 1 [w] rb rfl hrb' hsb hcb
    refine ⟨Fa + Fb + 2 + 1, ?_⟩
    have hrun : runP (Fa + Fb + 2 + 1) (.Repeat c 2 (some 4)) input q0
        = some (repFinish c 2 (some 4) 1 [w] q1) := by
      simp only [runP]
      exact e1.trans e2
    exact parse_of_runP hrun

theorem repeat_bounds_witness :
    ParseTo (.Repeat (.String "a") 2 (some 4))
      ('a' :: 'a' :: 'a' :: 'a' :: 'a' :: []) 0
      (true, some (.tup [.str "a", .str "a", .str "a", .str "a"]), 4) :=
  (repeat_bounds (.String "a") ('a' :: 'a' :: 'a' :: 'a' :: 'a' :: []) 0 1 2 3 4 5
    (.str "a") (.str "a") (.str "a") (.str "a") (.str "a")
    ⟨2, rfl⟩ ⟨2, rfl⟩ ⟨2, rfl⟩ ⟨2, rfl⟩ ⟨2, rfl⟩).1

theorem seqLoopF_success_step (child : Parser → Nat → Option PRes)
    (p : Parser) (ps : List Parser) (pos : Nat) (values : List Value)
    (r : PRes) (hch : child p pos = some r) (hs : r.success = true) :
    seqLoopF child (p :: ps) pos values
      = seqLoopF child ps (if r.commit then r.pos else pos)
          (if p.attr_type = AttrType.UNUSED then values else values ++ [r.value]) := by
  simp only [seqLoopF, hch]
  rw [if_pos hs]

/-- C10: a sequence includes a child's result according to the child's
static attribute type, not the runtime value.  An optional (zero-or-one)
repetition over a child of non-UNUSED attribute type commits the UNUSED
marker when the child matches zero times, and a sequence of that optional
and another non-UNUSED-typed child still collects the marker: the result is
the 2-tuple `(UNUSED, v)`, not the bare value `v`. -/
theorem optional_absent_marker (c d : Parser) (input : List Char)
    (pos pos' : Nat) (v : Value)
    (hca : c.attr_type ≠ AttrType.UNUSED)
    (hcf : ParseTo c input pos (false, none, pos))
    (hd : ParseTo d input pos (true, some v, pos'))
    (hda : d.attr_type ≠ AttrType.UNUSED) :
    ParseTo (.Repeat c 0 (some 1)) input pos (true, some Value.UNUSED, pos)
    ∧ ParseTo (.Seq [.Repeat c 0 (some 1), d]) input pos
        (true, some (.tup [.UNUSED, v]), pos') := by
  obtain ⟨_, _, Fb, rb, hrb, hsb, hcb⟩ := ParseTo_false_elim hcf
  obtain ⟨Fd, rd, hrd, hsd, hvd, hpd⟩ := ParseTo_true_elim hd
  have hopt : ∀ n, Fb ≤ n → runP (n + 1) (.Repeat c 0 (some 1)) input pos
      = some ⟨true, true, Value.UNUSED, pos⟩ := by
    intro n hn
    simp only [runP]
    rw [repLoopF_fail_step (fun pp => runP n c input pp) c 0 (some 1) n pos 0 []
      rb rfl (runP_mono _ _ hn _ _ _ _ hrb) hsb hcb]
    rfl
  constructor
  · exact ⟨Fb + 1, parse_of_runP (hopt Fb le_rfl)⟩
  · have hFb1 : Fb + 1 ≤ max (Fb + 1) Fd := le_max_left _ _
    obtain ⟨m, hm⟩ : ∃ m, max (Fb + 1) Fd = m + 1 := ⟨max (Fb + 1) Fd - 1, by omega⟩
    have hoptH : runP (max (Fb + 1) Fd) (.Repeat c 0 (some 1)) input pos
        = some ⟨true, true, Value.UNUSED, pos⟩ := by
      rw [hm]
      exact hopt m (by omega)
    have hrdH := runP_mono _ _ (le_max_right (Fb + 1) Fd) _ _ _ _ hrd
    have hat : (Parser.Repeat c 0 (some 1)).attr_type = c.attr_type := by
      simp [Parser.attr_type]
    refine ⟨max (Fb + 1) Fd + 1, ?_⟩
    have hrun : runP (max (Fb + 1) Fd + 1) (.Seq [.Repeat c 0 (some 1), d]) input pos
        = some (seqCommit [Value.UNUSED, rd.value] (if rd.commit then rd.pos else pos)) := by
      simp only [runP]
      rw [seqLoopF_success_step (fun q pp => runP (max (Fb + 1) Fd) q input pp)
        (.Repeat c 0 (some 1)) [d] pos [] ⟨true, true, Value.UNUSED, pos⟩ hoptH rfl]
      rw [ite_self, hat, if_neg hca]
      rw [seqLoopF_success_step (fun q pp => runP (max (Fb + 1) Fd) q input pp)
        d [] pos ([] ++ [Value.UNUSED]) rd hrdH hsd]
      rw [if_neg hda]
      rfl
    calc parse (max (Fb + 1) Fd + 1) (.Seq [.Repeat c 0 (some 1), d]) input pos
        = some (true, some (.tup [Value.UNUSED, rd.value]),
            if rd.commit then rd.pos else pos) := parse_of_runP hrun
      _ = some (true, some (.tup [.UNUSED, v]), pos') := by rw [hvd, hpd]

theorem optional_absent_marker_witness :
    ParseTo (.Seq [.Repeat (.String "x") 0 (some 1), .String "a"]) ('a' :: []) 0
      (true, some (.tup [.UNUSED, .str "a"]), 1) :=
  (optional_absent_marker (.String "x") (.String "a") ('a' :: []) 0 1 (.str "a")
    (by decide) ⟨2, rfl⟩ ⟨2, rfl⟩ (by decide)).2

end Booze
